import Mathlib

/-!
Verification of the GraphMaker training orchestrator (`train_async.py`) and
evaluator / graph-statistics pipeline (`eval_utils.py`) against its
natural-language specification.  Graphs are modelled as a node count together
with a list of directed edges; tensors of one-hot labels are collapsed to
label lists; Python floats are modelled exactly for the operations used
(rational values plus NaN and infinity); the global torch random generator is
modelled as an explicit generator record threaded through the stochastic
calls.
-/

/-- A directed graph: `numNodesG` nodes named `0 .. numNodesG - 1` and a list
of directed edges `(src, dst)`.  DGL graphs store an undirected graph as the
list of both directions of every edge. -/
structure Graph where
  numNodesG : ℕ
  edgesG : List (ℕ × ℕ)
deriving Repr, DecidableEq

/-- `dgl_g.num_edges()`: number of directed edge entries. -/
def Graph.numEdges (g : Graph) : ℕ := g.edgesG.length

/-- `graph.in_degrees()` at node `v`: number of edges whose destination is `v`. -/
def inDeg (g : Graph) (v : ℕ) : ℕ :=
  (g.edgesG.filter (fun e => e.2 == v)).length

/-- `same_class_deg` at node `v` (from `linkx_homophily`): the number of
in-edges `(u, v)` whose endpoints carry the same label, i.e. the aggregation
of the per-edge flag `y[src] == y[dst]` at the destination node. -/
def sameClassDeg (g : Graph) (y : List ℕ) (v : ℕ) : ℕ :=
  (g.edgesG.filter (fun e => e.2 == v && y.getD e.1 0 == y.getD e.2 0)).length

/- ### Edge index builder (`train_async.py`, lines 49-52)

`dst, src = torch.triu_indices(N, N, offset=1)` enumerates the strict upper
triangle in row-major order, and `edge_index = torch.stack([dst, src], dim=1)`
lists the pairs `(dst, src) = (i, j)` with `i < j`. -/

/-- The edge index built by the trainer: all pairs `(i, j)` with
`i < j < N`, in row-major order over the strict upper triangle. -/
def edge_index (N : ℕ) : List (ℕ × ℕ) :=
  (List.range N).flatMap (fun i => (List.range' (i + 1) (N - (i + 1))).map (fun j => (i, j)))

/-- Strict lexicographic order on pairs: the row-major enumeration order of
the upper triangle. -/
def lexLt (a b : ℕ × ℕ) : Prop := a.1 < b.1 ∨ (a.1 = b.1 ∧ a.2 < b.2)

instance (a b : ℕ × ℕ) : Decidable (lexLt a b) := by
  unfold lexLt; infer_instance

lemma pairwise_lt_range' (s n : ℕ) : (List.range' s n).Pairwise (· < ·) := by
  induction n generalizing s with
  | zero => simp
  | succ n ih =>
    rw [List.range'_succ]
    refine List.Pairwise.cons ?_ (ih (s + 1))
    intro a ha
    have := (List.mem_range'_1.mp ha).1
    omega

lemma pairwise_flatMap {α β : Type} {R : α → α → Prop} (f : β → List α) (l : List β)
    (h1 : ∀ b ∈ l, (f b).Pairwise R)
    (h2 : l.Pairwise (fun b b' => ∀ x ∈ f b, ∀ y ∈ f b', R x y)) :
    (l.flatMap f).Pairwise R := by
  induction l with
  | nil => simp
  | cons b l ih =>
    rw [List.flatMap_cons, List.pairwise_append]
    refine ⟨h1 b (by simp), ih (fun b' hb' => h1 b' (by simp [hb'])) (List.Pairwise.of_cons h2), ?_⟩
    intro x hx y hy
    rcases List.mem_flatMap.mp hy with ⟨b', hb', hyb'⟩
    exact (List.pairwise_cons.mp h2).1 b' hb' x hx y hyb'

lemma list_sum_map_range {M : Type} [AddCommMonoid M] (f : ℕ → M) (n : ℕ) :
    ((List.range n).map f).sum = ∑ i ∈ Finset.range n, f i := by
  induction n with
  | zero => simp
  | succ n ih => simp [List.range_succ, Finset.sum_range_succ, ih]

lemma edge_index_pairwise (N : ℕ) : (edge_index N).Pairwise lexLt := by
  unfold edge_index
  apply pairwise_flatMap
  · intro i _
    apply List.Pairwise.map
    · intro a b hab
      exact Or.inr ⟨rfl, hab⟩
    · exact pairwise_lt_range' _ _
  · have h : (List.range N).Pairwise (· < ·) := List.pairwise_lt_range N
    refine h.imp_of_mem ?_
    intro i i' _ _ hii'
    intro x hx y hy
    rcases List.mem_map.mp hx with ⟨j, _, rfl⟩
    rcases List.mem_map.mp hy with ⟨j', _, rfl⟩
    exact Or.inl hii'

lemma edge_index_mem_lt (N : ℕ) : ∀ p ∈ edge_index N, p.1 < p.2 := by
  intro p hp
  unfold edge_index at hp
  rcases List.mem_flatMap.mp hp with ⟨i, _, hpi⟩
  rcases List.mem_map.mp hpi with ⟨j, hj, rfl⟩
  have := (List.mem_range'_1.mp hj).1
  simpa using by omega

lemma edge_index_length (N : ℕ) : (edge_index N).length = N * (N - 1) / 2 := by
  unfold edge_index
  rw [List.length_flatMap]
  simp only [Function.comp_def, List.length_map, List.length_range']
  rw [list_sum_map_range]
  have h2 : ∑ i ∈ Finset.range N, (N - (i + 1)) = ∑ i ∈ Finset.range N, i := by
    have := Finset.sum_range_reflect (fun i => i) N
    calc ∑ i ∈ Finset.range N, (N - (i + 1))
        = ∑ i ∈ Finset.range N, (N - 1 - i) := by
          apply Finset.sum_congr rfl; intro i hi; omega
      _ = ∑ i ∈ Finset.range N, i := Finset.sum_range_reflect (fun i => i) N
  rw [h2, Finset.sum_range_id]

lemma edge_index_nodup (N : ℕ) : (edge_index N).Nodup := by
  refine (edge_index_pairwise N).imp ?_
  intro a b hab
  rcases hab with h | ⟨h1, h2⟩
  · intro hEq; rw [hEq] at h; omega
  · intro hEq; rw [hEq] at h2; omega

/-- C6: for every node count `N ≥ 2`, the trainer's edge index has exactly
`N(N-1)/2` entries, every entry has first component strictly below the second,
no pair is repeated (hence no pair with equal endpoints), and the entries are
strictly increasing in the canonical row-major (lexicographic) order of the
upper triangle. -/
theorem edge_index_spec (N : ℕ) (_hN : 2 ≤ N) :
    (edge_index N).length = N * (N - 1) / 2 ∧
    (∀ p ∈ edge_index N, p.1 < p.2) ∧
    (edge_index N).Nodup ∧
    (edge_index N).Pairwise lexLt := by
  exact ⟨edge_index_length N, edge_index_mem_lt N, edge_index_nodup N, edge_index_pairwise N⟩

/-- Witness for C6 at `N = 4`: the edge index is the six ordered pairs of the
upper triangle, in row-major order. -/
theorem edge_index_spec_witness :
    2 ≤ 4 ∧
    ((edge_index 4).length = 4 * (4 - 1) / 2 ∧
    (∀ p ∈ edge_index 4, p.1 < p.2) ∧
    (edge_index 4).Nodup ∧
    (edge_index 4).Pairwise lexLt) :=
  ⟨by decide, edge_index_spec 4 (by decide)⟩

/- ### Python-float model

The statistics in `eval_utils.py` run on torch float tensors.  Rounding is
idealised (values are exact rationals) but the IEEE special values produced
and consumed by the operations actually used — `0/0 = NaN`, `x/0 = ±inf`,
NaN-poisoning arithmetic, and all comparisons with NaN being false — are
modelled exactly. -/

/-- A Python/torch float: NaN, the two infinities, or a finite value. -/
inductive PF where
  | nan : PF
  | inf : PF
  | ninf : PF
  | num : ℚ → PF
deriving Repr, DecidableEq

/-- IEEE float addition (`value += ...`). -/
def PF.add : PF → PF → PF
  | .nan, _ => .nan
  | _, .nan => .nan
  | .num a, .num b => .num (a + b)
  | .inf, .ninf => .nan
  | .ninf, .inf => .nan
  | .inf, _ => .inf
  | _, .inf => .inf
  | .ninf, _ => .ninf
  | _, .ninf => .ninf

/-- IEEE float subtraction. -/
def PF.sub : PF → PF → PF
  | .nan, _ => .nan
  | _, .nan => .nan
  | .num a, .num b => .num (a - b)
  | .inf, .inf => .nan
  | .ninf, .ninf => .nan
  | .inf, _ => .inf
  | .ninf, _ => .ninf
  | .num _, .inf => .ninf
  | .num _, .ninf => .inf

/-- IEEE float division: `0/0` is NaN and `a/0` for `a ≠ 0` is a signed
infinity. -/
def PF.div : PF → PF → PF
  | .nan, _ => .nan
  | _, .nan => .nan
  | .num a, .num b =>
      if b = 0 then (if a = 0 then .nan else if 0 < a then .inf else .ninf)
      else .num (a / b)
  | .inf, .num b => if 0 ≤ b then .inf else .ninf
  | .ninf, .num b => if 0 ≤ b then .ninf else .inf
  | .num _, .inf => .num 0
  | .num _, .ninf => .num 0
  | .inf, _ => .nan
  | .ninf, _ => .nan

/-- Python `>` on floats: every comparison against NaN is false. -/
def PF.gt : PF → PF → Bool
  | .nan, _ => false
  | _, .nan => false
  | .num a, .num b => decide (b < a)
  | .inf, .inf => false
  | .inf, _ => true
  | _, .inf => false
  | .ninf, _ => false
  | _, .ninf => true

/-- Python `max(0, x)`: the builtin keeps the first argument and replaces it
only when the second compares strictly greater, so `max(0, nan) = 0`. -/
def pyMax0 (x : PF) : PF := if x.gt (.num 0) then x else .num 0

/-- Python float division by an integer; the zero-divisor case is guarded by
the caller (Python raises `ZeroDivisionError` there). -/
def PF.divNat : PF → ℕ → PF
  | .nan, _ => .nan
  | .inf, _ => .inf
  | .ninf, _ => .ninf
  | .num a, n => .num (a / (n : ℚ))

/- ### Class homophily (`eval_utils.py`, `linkx_homophily`, lines 10-61) -/

/-- `num_classes = y.max(dim=0).values.item() + 1`. -/
def numClasses (y : List ℕ) : ℕ := y.foldl max 0 + 1

/-- The nodes in class `k` (`class_mask = y == k`). -/
def classMembers (N : ℕ) (y : List ℕ) (k : ℕ) : List ℕ :=
  (List.range N).filter (fun v => y.getD v 0 == k)

/-- `same_class_deg_k`: sum of the same-class in-degree over class `k`. -/
def sumSameClassDeg (g : Graph) (y : List ℕ) (k : ℕ) : ℕ :=
  ((classMembers g.numNodesG y k).map (sameClassDeg g y)).sum

/-- `deg_k`: sum of the total in-degree over class `k`. -/
def sumInDegK (g : Graph) (y : List ℕ) (k : ℕ) : ℕ :=
  ((classMembers g.numNodesG y k).map (inDeg g)).sum

/-- The loop body of `linkx_homophily` for class `k`:
`max(0, same_class_deg_k / deg_k - num_nodes_k / num_nodes)` in Python-float
arithmetic. -/
def classTerm (g : Graph) (y : List ℕ) (k : ℕ) : PF :=
  pyMax0 (PF.sub
    (PF.div (.num (sumSameClassDeg g y k)) (.num (sumInDegK g y k)))
    (PF.div (.num ((classMembers g.numNodesG y k).length)) (.num g.numNodesG)))

/-- `linkx_homophily(graph, y)`: sums the per-class terms over
`k in range(num_classes)` and divides by `num_classes - 1`; with a single
class Python raises `ZeroDivisionError` at that final division. -/
def linkx_homophily (g : Graph) (y : List ℕ) : Except String PF :=
  let C := numClasses y
  let value := (List.range C).foldl (fun acc k => PF.add acc (classTerm g y k)) (.num 0)
  if C - 1 = 0 then .error "ZeroDivisionError: division by zero"
  else .ok (PF.divNat value (C - 1))

/-- The homophily statistic as worded by the specification: for each class
`k`, `r_k` is the sum of same-class in-degree over class-`k` nodes divided by
the sum of total in-degree over class-`k` nodes, `s_k` the fraction of nodes
in class `k`; the value is `(1/(C-1)) * Σ_k max(0, r_k - s_k)`. -/
def homophilySpec (g : Graph) (y : List ℕ) : ℚ :=
  (∑ k ∈ Finset.range (numClasses y),
      max 0 ((sumSameClassDeg g y k : ℚ) / (sumInDegK g y k : ℚ)
        - ((classMembers g.numNodesG y k).length : ℚ) / (g.numNodesG : ℚ)))
    / ((numClasses y : ℚ) - 1)

lemma pyMax0_num (a : ℚ) : pyMax0 (.num a) = .num (max 0 a) := by
  unfold pyMax0 PF.gt
  by_cases h : (0 : ℚ) < a
  · simp [h, max_eq_right h.le]
  · simp [h, max_eq_left (le_of_not_lt h)]

lemma sameClassDeg_le_inDeg (g : Graph) (y : List ℕ) (v : ℕ) :
    sameClassDeg g y v ≤ inDeg g v := by
  unfold sameClassDeg inDeg
  apply List.Sublist.length_le
  apply List.monotone_filter_right
  intro e he
  simp only [Bool.and_eq_true] at he
  exact he.1

lemma sumSameClassDeg_le (g : Graph) (y : List ℕ) (k : ℕ) :
    sumSameClassDeg g y k ≤ sumInDegK g y k := by
  unfold sumSameClassDeg sumInDegK
  apply List.sum_le_sum
  intro v _
  exact sameClassDeg_le_inDeg g y v

/-- A class whose total in-degree is zero contributes exactly `0`: the `0/0`
NaN is discarded by `max(0, ·)` because `NaN > 0` is false. -/
lemma classTerm_zero_deg (g : Graph) (y : List ℕ) (k : ℕ)
    (hdeg : sumInDegK g y k = 0) : classTerm g y k = .num 0 := by
  have hsame : sumSameClassDeg g y k = 0 :=
    Nat.le_zero.mp (hdeg ▸ sumSameClassDeg_le g y k)
  unfold classTerm
  rw [hsame, hdeg]
  simp [PF.div, PF.sub, pyMax0, PF.gt]

/-- With a positive class in-degree sum and a nonempty graph the per-class
term is the exact rational value. -/
lemma classTerm_num (g : Graph) (y : List ℕ) (k : ℕ)
    (hN : 0 < g.numNodesG) (hdeg : 0 < sumInDegK g y k) :
    classTerm g y k = .num (max 0 ((sumSameClassDeg g y k : ℚ) / (sumInDegK g y k : ℚ)
      - ((classMembers g.numNodesG y k).length : ℚ) / (g.numNodesG : ℚ))) := by
  unfold classTerm
  have h1 : ((sumInDegK g y k : ℚ)) ≠ 0 := by positivity
  have h2 : ((g.numNodesG : ℚ)) ≠ 0 := by positivity
  rw [show PF.div (.num (sumSameClassDeg g y k)) (.num (sumInDegK g y k))
      = .num ((sumSameClassDeg g y k : ℚ) / (sumInDegK g y k : ℚ)) by simp [PF.div, h1]]
  rw [show PF.div (.num ((classMembers g.numNodesG y k).length)) (.num g.numNodesG)
      = .num (((classMembers g.numNodesG y k).length : ℚ) / (g.numNodesG : ℚ)) by
        simp [PF.div, h2]]
  rw [show PF.sub (.num ((sumSameClassDeg g y k : ℚ) / (sumInDegK g y k : ℚ)))
      (.num (((classMembers g.numNodesG y k).length : ℚ) / (g.numNodesG : ℚ)))
      = .num ((sumSameClassDeg g y k : ℚ) / (sumInDegK g y k : ℚ)
        - ((classMembers g.numNodesG y k).length : ℚ) / (g.numNodesG : ℚ)) from rfl]
  exact pyMax0_num _

lemma foldl_add_num (f : ℕ → PF) (fq : ℕ → ℚ) (l : List ℕ)
    (h : ∀ k ∈ l, f k = .num (fq k)) (q : ℚ) :
    l.foldl (fun acc k => PF.add acc (f k)) (.num q) = .num (q + (l.map fq).sum) := by
  induction l generalizing q with
  | nil => simp
  | cons k l ih =>
    rw [List.foldl_cons, h k (by simp)]
    rw [show PF.add (.num q) (.num (fq k)) = .num (q + fq k) from rfl]
    rw [ih (fun k' hk' => h k' (by simp [hk'])) (q + fq k)]
    simp [add_assoc]

/- ### The global torch random generator

All stochastic calls in `eval_utils.py` draw from the single global torch
generator.  It is modelled as an abstract deterministic generator: a state
type (natural numbers), a `randperm` operation returning a permutation and
the successor state, and `manual_seed`, mapping a seed to a state.  A
generator is lawful when `randperm` really returns a permutation of
`range n`. -/

structure RandGen where
  randperm : ℕ → ℕ → List ℕ × ℕ
  seed : ℕ → ℕ

/-- `torch.randperm(n)` returns a permutation of `0 .. n-1`. -/
def RandGen.Lawful (rg : RandGen) : Prop :=
  ∀ s n, (rg.randperm s n).1.Perm (List.range n)

/-- `nodes_y[nid_y]`: index a list by a list of positions. -/
def applyPerm (p : List ℕ) (xs : List ℕ) : List ℕ := p.map (fun i => xs.getD i 0)

/-- The three boolean split masks, represented by the lists of node ids set
to true (`mask[nodes] = 1.`). -/
structure MaskTriple where
  trainM : List ℕ
  valM : List ℕ
  testM : List ℕ
deriving Repr, DecidableEq

/-- `nodes_y = (Y_one_hot[:, y] == 1.).nonzero().squeeze(-1)`: the nodes of
class `y`, in ascending order. -/
def classNodes (N : ℕ) (Y : ℕ → ℕ → Bool) (y : ℕ) : List ℕ :=
  (List.range N).filter (fun v => Y v y)

/-- `num_val_nodes` of `add_mask_cora`.  (The Python dict raises `KeyError`
beyond its seven keys, so theorems about the cora strategy restrict the class
count to at most 7.) -/
def num_val_nodes_cora : ℕ → ℕ
  | 0 => 61 | 1 => 36 | 2 => 78 | 3 => 158 | 4 => 81 | 5 => 57 | 6 => 29 | _ => 0

/-- `num_test_nodes` of `add_mask_cora`. -/
def num_test_nodes_cora : ℕ → ℕ
  | 0 => 130 | 1 => 91 | 2 => 144 | 3 => 319 | 4 => 149 | 5 => 103 | 6 => 64 | _ => 0

/-- `num_val_nodes` of `add_mask_citeseer` (six keys). -/
def num_val_nodes_citeseer : ℕ → ℕ
  | 0 => 29 | 1 => 86 | 2 => 116 | 3 => 106 | 4 => 94 | 5 => 69 | _ => 0

/-- `num_test_nodes` of `add_mask_citeseer`. -/
def num_test_nodes_citeseer : ℕ → ℕ
  | 0 => 77 | 1 => 182 | 2 => 181 | 3 => 231 | 4 => 169 | 5 => 160 | _ => 0

/-- The per-class slice assignment shared by `add_mask_cora` and
`add_mask_citeseer`: `train = nodes_y[:20]`, `val = nodes_y[20 : 20+v]`,
`test = nodes_y[20+v : 20+v+t]`. -/
def classSlices (vC tC : ℕ → ℕ) (y : ℕ) (ns : List ℕ) :
    List ℕ × List ℕ × List ℕ :=
  (ns.take 20, (ns.drop 20).take (vC y), ((ns.drop 20).drop (vC y)).take (tC y))

/-- The per-class slice assignment of `add_mask_benchmark`:
`train = nodes_y[:20]`, `val = nodes_y[20:50]`, `test = nodes_y[50:]`. -/
def classSlicesBench (_y : ℕ) (ns : List ℕ) : List ℕ × List ℕ × List ℕ :=
  (ns.take 20, (ns.drop 20).take 30, ns.drop 50)

/-- The `for y in range(num_classes)` loop shared by the three mask
strategies: for each class in order, draw a fresh permutation from the
generator, permute that class's node list and append the three slices. -/
def maskLoop (rg : RandGen) (slice : ℕ → List ℕ → List ℕ × List ℕ × List ℕ)
    (N : ℕ) (Y : ℕ → ℕ → Bool) : List ℕ → ℕ → MaskTriple × ℕ
  | [], s => (⟨[], [], []⟩, s)
  | y :: ys, s =>
    let ns0 := classNodes N Y y
    let pr := rg.randperm s ns0.length
    let ns := applyPerm pr.1 ns0
    let sl := slice y ns
    let rest := maskLoop rg slice N Y ys pr.2
    (⟨sl.1 ++ rest.1.trainM, sl.2.1 ++ rest.1.valM, sl.2.2 ++ rest.1.testM⟩, rest.2)

/-- `Evaluator.add_mask_cora` (lines 99-146). -/
def add_mask_cora (rg : RandGen) (s : ℕ) (N C : ℕ) (Y : ℕ → ℕ → Bool) :
    MaskTriple × ℕ :=
  maskLoop rg (classSlices num_val_nodes_cora num_test_nodes_cora) N Y (List.range C) s

/-- `Evaluator.add_mask_citeseer` (lines 148-193). -/
def add_mask_citeseer (rg : RandGen) (s : ℕ) (N C : ℕ) (Y : ℕ → ℕ → Bool) :
    MaskTriple × ℕ :=
  maskLoop rg (classSlices num_val_nodes_citeseer num_test_nodes_citeseer) N Y (List.range C) s

/-- `Evaluator.add_mask_benchmark` (lines 195-216). -/
def add_mask_benchmark (rg : RandGen) (s : ℕ) (N C : ℕ) (Y : ℕ → ℕ → Bool) :
    MaskTriple × ℕ :=
  maskLoop rg classSlicesBench N Y (List.range C) s

/-- `Evaluator.add_mask` (lines 218-226): string-keyed dispatch; an
unrecognized identifier raises `ValueError` naming the value. -/
def add_mask (rg : RandGen) (s : ℕ) (dataName : String) (N C : ℕ)
    (Y : ℕ → ℕ → Bool) : Except String (MaskTriple × ℕ) :=
  if dataName = "cora" then .ok (add_mask_cora rg s N C Y)
  else if dataName = "citeseer" then .ok (add_mask_citeseer rg s N C Y)
  else if dataName = "amazon_photo" ∨ dataName = "amazon_computer" then
    .ok (add_mask_benchmark rg s N C Y)
  else .error ("Unexpected data name: " ++ dataName)

/- ### Subgraph sampling (`Evaluator.sample_subg`, lines 228-239) -/

/-- `A_upper.nonzero()`: the nonzero entries of the strict upper triangle of
the dense adjacency, in row-major order. -/
def candidateEdges (g : Graph) : List (ℕ × ℕ) :=
  (List.range g.numNodesG).flatMap (fun i =>
    ((List.range g.numNodesG).filter
      (fun j => decide (i < j) && g.edgesG.contains (i, j))).map (fun j => (i, j)))

/-- `Evaluator.sample_subg`: draw `edge_limit // 2` candidate upper-triangle
edges via `randperm`, build a directed graph on the original node count and
make it bidirected (`dgl.to_bidirected` keeps one copy of every edge in both
directions). -/
def sample_subg (rg : RandGen) (s : ℕ) (g : Graph) (edgeLimit : ℕ) :
    Graph × ℕ :=
  let edges := candidateEdges g
  let pr := rg.randperm s edges.length
  let indices := pr.1.take (edgeLimit / 2)
  let chosen := indices.map (fun k => edges.getD k (0, 0))
  (⟨g.numNodesG, (chosen ++ chosen.map Prod.swap).dedup⟩, pr.2)

/- ### Triangle count (`get_triangle_count`, lines 6-8) -/

/-- Undirected adjacency of the (possibly directed) graph, as produced by
`nx.to_undirected`. -/
def undAdj (g : Graph) (u v : ℕ) : Bool :=
  u != v && (g.edgesG.contains (u, v) || g.edgesG.contains (v, u))

/-- The unordered node pairs `(u, w)`, `u < w`, used to enumerate potential
triangle corners. -/
def nodePairs (N : ℕ) : List (ℕ × ℕ) :=
  (List.range N).flatMap (fun u =>
    ((List.range N).filter (fun w => u < w)).map (fun w => (u, w)))

/-- `nx.triangles` at node `v`: the number of adjacent pairs of neighbours. -/
def trianglesAt (g : Graph) (v : ℕ) : ℕ :=
  ((nodePairs g.numNodesG).filter
    (fun p => undAdj g v p.1 && undAdj g v p.2 && undAdj g p.1 p.2)).length

/-- `get_triangle_count`: sum of the per-node triangle counts divided by 3
(Python float division). -/
def get_triangle_count (g : Graph) : ℚ :=
  (((List.range g.numNodesG).map (trianglesAt g)).sum : ℚ) / 3

/- ### `Evaluator.preprocess_g` (lines 241-279) and `Evaluator.__init__`
(lines 64-97) -/

/-- The collapse of a one-hot label tensor back to boolean class
indicators: `Y_one_hot[v, k] == 1` for label list `y` is `y[v] = k`. -/
def oneHotY (y : List ℕ) : ℕ → ℕ → Bool := fun v k => y.getD v 0 == k

/-- The data attached to the preprocessed graph. -/
structure EvalResult where
  masksR : Option MaskTriple
  statsGraph : Graph
  triangleCountR : ℚ
  homophilyR : PF
deriving Repr, DecidableEq

/-- Lines 269-272 of `preprocess_g`: use a sampled subgraph for the costly
statistics only when the edge count exceeds the edge limit. -/
def chooseStatsGraph (rg : RandGen) (s : ℕ) (g : Graph) (edgeLimit : ℕ) :
    Graph × ℕ :=
  if g.numEdges > edgeLimit then sample_subg rg s g edgeLimit else (g, s)

/-- `Evaluator.preprocess_g`: optionally attach split masks, pick the
statistics graph, compute the triangle count on it, and compute the homophily
on the full graph. -/
def preprocess_g (rg : RandGen) (s : ℕ) (dataName : String) (g : Graph)
    (C : ℕ) (y : List ℕ) (addMaskFlag : Bool) (edgeLimit : ℕ) :
    Except String EvalResult := do
  let mp ← if addMaskFlag then
      (add_mask rg s dataName g.numNodesG C (oneHotY y)).map (fun r => (some r.1, r.2))
    else .ok (none, s)
  let sg := chooseStatsGraph rg mp.2 g edgeLimit
  let tri := get_triangle_count sg.1
  let hom ← linkx_homophily g y
  .ok ⟨mp.1, sg.1, tri, hom⟩

/-- `dataName in ["amazon_photo", "amazon_computer"]`. -/
def isAmazonName (dataName : String) : Bool :=
  decide (dataName = "amazon_photo" ∨ dataName = "amazon_computer")

/-- `Evaluator.__init__`: fix the edge limit to
`min(num_edges, 20000)`, reseed the global generator to 0 and request masks
exactly for the two amazon datasets, then preprocess.  `C` is the width of
the one-hot label tensor `Y_one_hot_real` and `y` its per-node argmax. -/
def evaluatorInit (rg : RandGen) (s : ℕ) (dataName : String) (g : Graph)
    (C : ℕ) (y : List ℕ) : Except String EvalResult :=
  let edgeLimit := min g.numEdges 20000
  let s1 := if isAmazonName dataName then rg.seed 0 else s
  preprocess_g rg s1 dataName g C y (isAmazonName dataName) edgeLimit

/- ### Concrete instances used by the witnesses -/

/-- A concrete lawful generator: `randperm` returns the identity permutation
and advances the state. -/
def rgId : RandGen := ⟨fun s n => (List.range n, s + 1), fun k => k⟩

lemma rgId_lawful : RandGen.Lawful rgId := fun _ _ => List.Perm.refl _

/-- Three nodes with labels `[0, 1, 1]` and one undirected edge `1 — 2`:
class 0 has zero total in-degree. -/
def gW : Graph := ⟨3, [(1, 2), (2, 1)]⟩

/-- Four nodes with labels `[0, 0, 1, 1]` and undirected edges `0 — 1`,
`2 — 3`: both classes have positive in-degree. -/
def gW4 : Graph := ⟨4, [(0, 1), (1, 0), (2, 3), (3, 2)]⟩

/- ### Inversion of the constructor pipeline -/

/-- Shape of any successful `Evaluator` construction: the masks and generator
state from the mask phase, the statistics graph chosen against the edge
limit, the triangle count on that graph, and the homophily on the full
graph. -/
lemma evaluatorInit_ok (rg : RandGen) (s : ℕ) (dataName : String) (g : Graph)
    (C : ℕ) (y : List ℕ) (r : EvalResult)
    (h : evaluatorInit rg s dataName g C y = .ok r) :
    ∃ (mp : Option MaskTriple × ℕ) (hom : PF),
      linkx_homophily g y = .ok hom ∧
      r = ⟨mp.1, (chooseStatsGraph rg mp.2 g (min g.numEdges 20000)).1,
           get_triangle_count (chooseStatsGraph rg mp.2 g (min g.numEdges 20000)).1,
           hom⟩ := by
  unfold evaluatorInit preprocess_g at h
  cases hAm : isAmazonName dataName <;> rw [hAm] at h <;>
    simp only [Bool.false_eq_true, if_false, if_true, reduceIte, Bind.bind] at h
  · cases hhom : linkx_homophily g y <;> rw [hhom] at h <;>
      simp only [Except.bind] at h
    · cases h
    · exact ⟨(none, s), _, rfl, by cases h; rfl⟩
  · cases hmask : add_mask rg (rg.seed 0) dataName g.numNodesG C (oneHotY y) <;>
      rw [hmask] at h <;> simp only [Except.map, Except.bind] at h
    · cases h
    · rename_i mp
      cases hhom : linkx_homophily g y <;> rw [hhom] at h <;>
        simp only [Except.bind] at h
      · cases h
      · exact ⟨(some mp.1, mp.2), _, rfl, by cases h; rfl⟩

instance {ε α : Type} [DecidableEq ε] [DecidableEq α] : DecidableEq (Except ε α) := fun
  | .error e, .error f =>
      decidable_of_iff (e = f) ⟨by rintro rfl; rfl, by intro h; cases h; rfl⟩
  | .error _, .ok _ => .isFalse (by intro h; cases h)
  | .ok _, .error _ => .isFalse (by intro h; cases h)
  | .ok a, .ok b =>
      decidable_of_iff (a = b) ⟨by rintro rfl; rfl, by intro h; cases h; rfl⟩

/- ### C1: unrecognized dataset identifier -/

/-- C1 counterexample: constructing an `Evaluator` with the unrecognized
identifier `"foo"` does not fail — the mask-adding flag stays false, so the
`ValueError` branch of `add_mask` is never reached and statistics are
attached normally. -/
theorem evaluator_unknown_name_cex :
    (evaluatorInit rgId 0 "foo" gW 2 [0, 1, 1]).isOk = true ∧
    evaluatorInit rgId 0 "foo" gW 2 [0, 1, 1] ≠
      .error ("Unexpected data name: " ++ "foo") := by
  have h : ∃ r : EvalResult, evaluatorInit rgId 0 "foo" gW 2 [0, 1, 1] = .ok r := by
    have hAm : isAmazonName "foo" = false := by decide
    have hhom : linkx_homophily gW [0, 1, 1] =
        .ok (PF.divNat ((List.range (numClasses [0, 1, 1])).foldl
          (fun acc k => PF.add acc (classTerm gW [0, 1, 1] k)) (.num 0))
          (numClasses [0, 1, 1] - 1)) := by
      unfold linkx_homophily
      rw [if_neg (by decide)]
    refine ⟨⟨none, (chooseStatsGraph rgId 0 gW (min gW.numEdges 20000)).1,
      get_triangle_count (chooseStatsGraph rgId 0 gW (min gW.numEdges 20000)).1,
      PF.divNat ((List.range (numClasses [0, 1, 1])).foldl
        (fun acc k => PF.add acc (classTerm gW [0, 1, 1] k)) (.num 0))
        (numClasses [0, 1, 1] - 1)⟩, ?_⟩
    unfold evaluatorInit preprocess_g
    rw [hAm]
    simp only [Bool.false_eq_true, reduceIte, Bind.bind, Except.bind, hhom]
  obtain ⟨r, hr⟩ := h
  rw [hr]
  exact ⟨rfl, by intro hcontra; cases hcontra⟩

/-- C1 amended: an unrecognized dataset identifier makes a direct
`add_mask` call fail with an invalid-argument error naming the value, but
the `Evaluator` constructor itself does not call `add_mask` for such a name:
construction succeeds (whenever the label set has at least two classes, so
the homophily computation is defined) and no masks are attached. -/
theorem evaluator_unknown_name_amended (rg : RandGen) (s : ℕ) (dataName : String)
    (g : Graph) (C : ℕ) (y : List ℕ)
    (hname : dataName ≠ "cora" ∧ dataName ≠ "citeseer" ∧
      dataName ≠ "amazon_photo" ∧ dataName ≠ "amazon_computer")
    (hC : 2 ≤ numClasses y) :
    add_mask rg s dataName g.numNodesG C (oneHotY y) =
      .error ("Unexpected data name: " ++ dataName) ∧
    ∃ r : EvalResult, evaluatorInit rg s dataName g C y = .ok r ∧ r.masksR = none := by
  obtain ⟨h1, h2, h3, h4⟩ := hname
  constructor
  · unfold add_mask
    rw [if_neg h1, if_neg h2, if_neg (by tauto)]
  · have hAm : isAmazonName dataName = false := by
      simp [isAmazonName, h3, h4]
    have hhom : linkx_homophily g y =
        .ok (PF.divNat ((List.range (numClasses y)).foldl
          (fun acc k => PF.add acc (classTerm g y k)) (.num 0)) (numClasses y - 1)) := by
      unfold linkx_homophily
      rw [if_neg (by omega)]
    refine ⟨⟨none, (chooseStatsGraph rg s g (min g.numEdges 20000)).1,
      get_triangle_count (chooseStatsGraph rg s g (min g.numEdges 20000)).1,
      PF.divNat ((List.range (numClasses y)).foldl
        (fun acc k => PF.add acc (classTerm g y k)) (.num 0)) (numClasses y - 1)⟩, ?_, rfl⟩
    unfold evaluatorInit preprocess_g
    rw [hAm]
    simp only [Bool.false_eq_true, reduceIte, Bind.bind, Except.bind, hhom]

/-- Witness for the amended C1 at the concrete identifier `"foo"`. -/
theorem evaluator_unknown_name_amended_witness :
    (("foo" ≠ "cora" ∧ "foo" ≠ "citeseer" ∧
      "foo" ≠ "amazon_photo" ∧ "foo" ≠ "amazon_computer") ∧ 2 ≤ numClasses [0, 1, 1]) ∧
    (add_mask rgId 0 "foo" gW.numNodesG 2 (oneHotY [0, 1, 1]) =
      .error ("Unexpected data name: " ++ "foo") ∧
    ∃ r : EvalResult, evaluatorInit rgId 0 "foo" gW 2 [0, 1, 1] = .ok r ∧ r.masksR = none) :=
  ⟨⟨by decide, by decide⟩,
    evaluator_unknown_name_amended rgId 0 "foo" gW 2 [0, 1, 1] ⟨by decide, by decide, by decide, by decide⟩ (by decide)⟩

/- ### C9: constructor-level reseed makes the amazon splits deterministic -/

/-- C9: for the two amazon dataset identifiers the constructor reseeds the
single global generator to the fixed seed 0 before building the split masks,
so two constructions from any two prior generator states produce identical
results (masks included) — the instances are not independently random. -/
theorem evaluator_reseed_deterministic (rg : RandGen) (s1 s2 : ℕ) (dataName : String)
    (g : Graph) (C : ℕ) (y : List ℕ)
    (h : dataName = "amazon_photo" ∨ dataName = "amazon_computer") :
    evaluatorInit rg s1 dataName g C y = evaluatorInit rg s2 dataName g C y := by
  have hAm : isAmazonName dataName = true := by
    simpa [isAmazonName] using h
  unfold evaluatorInit preprocess_g
  rw [hAm]
  simp only [reduceIte]

/-- Witness for C9: two constructions from generator states 5 and 99. -/
theorem evaluator_reseed_deterministic_witness :
    ("amazon_photo" = "amazon_photo" ∨ "amazon_photo" = "amazon_computer") ∧
    evaluatorInit rgId 5 "amazon_photo" gW 2 [0, 1, 1] =
      evaluatorInit rgId 99 "amazon_photo" gW 2 [0, 1, 1] :=
  ⟨Or.inl rfl,
    evaluator_reseed_deterministic rgId 5 99 "amazon_photo" gW 2 [0, 1, 1] (Or.inl rfl)⟩

/- ### C10: zero-in-degree classes in the homophily computation -/

lemma foldl_add_isNum (f : ℕ → PF) (l : List ℕ)
    (h : ∀ k ∈ l, ∃ a, f k = .num a) (q : ℚ) :
    ∃ s, l.foldl (fun acc k => PF.add acc (f k)) (.num q) = .num s := by
  induction l generalizing q with
  | nil => exact ⟨q, rfl⟩
  | cons k l ih =>
    obtain ⟨a, ha⟩ := h k (by simp)
    rw [List.foldl_cons, ha,
      show PF.add (.num q) (.num a) = .num (q + a) from rfl]
    exact ih (fun k' hk' => h k' (by simp [hk'])) (q + a)

lemma classTerm_isNum (g : Graph) (y : List ℕ) (k : ℕ) :
    ∃ a, classTerm g y k = .num a := by
  by_cases hdeg : sumInDegK g y k = 0
  · exact ⟨0, classTerm_zero_deg g y k hdeg⟩
  · have hN : 0 < g.numNodesG := by
      by_contra hN0
      apply hdeg
      unfold sumInDegK classMembers
      rw [show g.numNodesG = 0 by omega]
      rfl
    exact ⟨_, classTerm_num g y k hN (Nat.pos_of_ne_zero hdeg)⟩

/-- C10 counterexample: in `gW` (labels `[0,1,1]`, one undirected edge inside
class 1) class 0 has zero total in-degree and there are two classes, yet
`linkx_homophily` returns the finite value `1/3`, not NaN: the `0/0` NaN is
discarded by Python's `max(0, ·)` because `NaN > 0` is false. -/
theorem linkx_zero_indegree_cex :
    sumInDegK gW [0, 1, 1] 0 = 0 ∧ 2 ≤ numClasses [0, 1, 1] ∧
    linkx_homophily gW [0, 1, 1] = .ok (.num (1 / 3)) := by
  refine ⟨by decide, by decide, ?_⟩
  have h0 : classTerm gW [0, 1, 1] 0 = .num 0 :=
    classTerm_zero_deg gW [0, 1, 1] 0 (by decide)
  have h1 : classTerm gW [0, 1, 1] 1 = .num (1 / 3) := by
    rw [classTerm_num gW [0, 1, 1] 1 (by decide) (by decide),
      show sumSameClassDeg gW [0, 1, 1] 1 = 2 by decide,
      show sumInDegK gW [0, 1, 1] 1 = 2 by decide,
      show (classMembers gW.numNodesG [0, 1, 1] 1).length = 2 by decide,
      show gW.numNodesG = 3 by decide]
    congr 1
    rw [max_eq_right (by norm_num)]
    norm_num
  simp only [linkx_homophily]
  rw [show numClasses [0, 1, 1] = 2 by decide, if_neg (by decide),
    show List.range 2 = [0, 1] by decide,
    List.foldl_cons, List.foldl_cons, List.foldl_nil, h0, h1,
    show PF.add (.num 0) (.num 0) = .num (0 + 0) from rfl,
    show PF.add (.num (0 + 0)) (.num (1 / 3)) = .num (0 + 0 + 1 / 3) from rfl]
  simp only [PF.divNat]
  congr 1
  norm_num

/-- C10 amended: the per-class division is indeed unguarded and the class
count is `max(y) + 1`, but a class whose total in-degree is zero contributes
exactly `0` (its `0/0` NaN is eliminated by `max(0, ·)`, NaN comparisons
being false), and with at least two classes the function always returns a
finite value — it neither returns NaN nor raises. -/
theorem linkx_zero_indegree_amended (g : Graph) (y : List ℕ)
    (hC : 2 ≤ numClasses y) :
    (∀ k, sumInDegK g y k = 0 → classTerm g y k = .num 0) ∧
    (∃ q : ℚ, linkx_homophily g y = .ok (.num q)) := by
  refine ⟨fun k hk => classTerm_zero_deg g y k hk, ?_⟩
  obtain ⟨sN, hs⟩ := foldl_add_isNum (classTerm g y) (List.range (numClasses y))
    (fun k _ => classTerm_isNum g y k) 0
  refine ⟨sN / ((numClasses y - 1 : ℕ) : ℚ), ?_⟩
  unfold linkx_homophily
  rw [if_neg (by omega), hs]
  rfl

/-- Witness for the amended C10 on the concrete graph `gW`. -/
theorem linkx_zero_indegree_amended_witness :
    2 ≤ numClasses [0, 1, 1] ∧
    ((∀ k, sumInDegK gW [0, 1, 1] k = 0 → classTerm gW [0, 1, 1] k = .num 0) ∧
     (∃ q : ℚ, linkx_homophily gW [0, 1, 1] = .ok (.num q))) :=
  ⟨by decide, linkx_zero_indegree_amended gW [0, 1, 1] (by decide)⟩

/- ### C4: the homophily statistic equals the spec formula, on the full graph -/

/-- C4: with at least two classes and every class carrying at least one
in-edge, `linkx_homophily` returns exactly
`(1/(C-1)) * Σ_k max(0, r_k - s_k)` with `r_k` and `s_k` as worded by the
specification, and every successful `Evaluator` construction stores that
value computed on the full, non-subsampled graph — whatever the edge count
and the sampled statistics graph. -/
theorem linkx_homophily_spec_correct (rg : RandGen) (s : ℕ) (dataName : String)
    (g : Graph) (C : ℕ) (y : List ℕ)
    (hC : 2 ≤ numClasses y)
    (hdeg : ∀ k, k < numClasses y → 0 < sumInDegK g y k) :
    linkx_homophily g y = .ok (.num (homophilySpec g y)) ∧
    (∀ r, evaluatorInit rg s dataName g C y = .ok r →
      r.homophilyR = .num (homophilySpec g y)) := by
  have hN : 0 < g.numNodesG := by
    have h0 := hdeg 0 (by omega)
    by_contra hN0
    have hz : sumInDegK g y 0 = 0 := by
      unfold sumInDegK classMembers
      rw [show g.numNodesG = 0 by omega]
      rfl
    omega
  have hmain : linkx_homophily g y = .ok (.num (homophilySpec g y)) := by
    unfold linkx_homophily
    rw [if_neg (by omega)]
    rw [foldl_add_num (classTerm g y)
      (fun k => max 0 ((sumSameClassDeg g y k : ℚ) / (sumInDegK g y k : ℚ)
        - ((classMembers g.numNodesG y k).length : ℚ) / (g.numNodesG : ℚ)))
      (List.range (numClasses y))
      (fun k hk => classTerm_num g y k hN (hdeg k (List.mem_range.mp hk))) 0]
    rw [zero_add, list_sum_map_range]
    rw [show PF.divNat (.num (∑ k ∈ Finset.range (numClasses y),
        max 0 ((sumSameClassDeg g y k : ℚ) / (sumInDegK g y k : ℚ)
          - ((classMembers g.numNodesG y k).length : ℚ) / (g.numNodesG : ℚ))))
        (numClasses y - 1)
      = .num ((∑ k ∈ Finset.range (numClasses y),
        max 0 ((sumSameClassDeg g y k : ℚ) / (sumInDegK g y k : ℚ)
          - ((classMembers g.numNodesG y k).length : ℚ) / (g.numNodesG : ℚ)))
        / ((numClasses y - 1 : ℕ) : ℚ)) from rfl]
    unfold homophilySpec
    rw [Nat.cast_sub (by omega : 1 ≤ numClasses y), Nat.cast_one]
  refine ⟨hmain, fun r hr => ?_⟩
  obtain ⟨mp, hom, hhom, hre⟩ := evaluatorInit_ok rg s dataName g C y r hr
  rw [hmain] at hhom
  cases hhom
  rw [hre]

/-- Witness for C4 on `gW4` (labels `[0, 0, 1, 1]`, undirected edges `0 — 1`
and `2 — 3`): two classes, both with positive in-degree sums. -/
theorem linkx_homophily_spec_correct_witness :
    (2 ≤ numClasses [0, 0, 1, 1] ∧
      (∀ k, k < numClasses [0, 0, 1, 1] → 0 < sumInDegK gW4 [0, 0, 1, 1] k)) ∧
    (linkx_homophily gW4 [0, 0, 1, 1] = .ok (.num (homophilySpec gW4 [0, 0, 1, 1])) ∧
    (∀ r, evaluatorInit rgId 0 "cora" gW4 2 [0, 0, 1, 1] = .ok r →
      r.homophilyR = .num (homophilySpec gW4 [0, 0, 1, 1]))) :=
  ⟨⟨by decide, by decide⟩,
    linkx_homophily_spec_correct rgId 0 "cora" gW4 2 [0, 0, 1, 1] (by decide) (by decide)⟩

/- ### C5: subgraph sampling under the edge cap -/

/-- C5: with the edge cap fixed to `min(num_edges, 20000)` as in the
constructor, the sampled subgraph always has at most `cap` directed edge
entries and is symmetric; the statistics graph is the sampled subgraph
exactly when the cap is exceeded and the unsampled input graph otherwise,
and every successful construction uses a graph chosen by that rule. -/
lemma sample_subg_numEdges_le (rg : RandGen) (s : ℕ) (g : Graph) (eL : ℕ) :
    (sample_subg rg s g eL).1.numEdges ≤ eL := by
  have hrfl : (sample_subg rg s g eL).1.edgesG =
      (((rg.randperm s (candidateEdges g).length).1.take (eL / 2)).map
          (fun k => (candidateEdges g).getD k (0, 0)) ++
        (((rg.randperm s (candidateEdges g).length).1.take (eL / 2)).map
          (fun k => (candidateEdges g).getD k (0, 0))).map Prod.swap).dedup := rfl
  have h2 := (List.dedup_sublist
    (((rg.randperm s (candidateEdges g).length).1.take (eL / 2)).map
        (fun k => (candidateEdges g).getD k (0, 0)) ++
      (((rg.randperm s (candidateEdges g).length).1.take (eL / 2)).map
        (fun k => (candidateEdges g).getD k (0, 0))).map Prod.swap)).length_le
  simp only [List.length_append, List.length_map, List.length_take] at h2
  have h3 : min (eL / 2) (rg.randperm s (candidateEdges g).length).1.length ≤ eL / 2 :=
    min_le_left _ _
  show (sample_subg rg s g eL).1.edgesG.length ≤ eL
  rw [hrfl]
  omega

theorem sample_subg_spec (rg : RandGen) (s : ℕ) (dataName : String) (g : Graph)
    (C : ℕ) (y : List ℕ) (_hrg : rg.Lawful) :
    ((sample_subg rg s g (min g.numEdges 20000)).1.numEdges ≤ min g.numEdges 20000) ∧
    (∀ u v, (u, v) ∈ (sample_subg rg s g (min g.numEdges 20000)).1.edgesG ↔
            (v, u) ∈ (sample_subg rg s g (min g.numEdges 20000)).1.edgesG) ∧
    (min g.numEdges 20000 < g.numEdges →
      chooseStatsGraph rg s g (min g.numEdges 20000) = sample_subg rg s g (min g.numEdges 20000)) ∧
    (g.numEdges ≤ min g.numEdges 20000 →
      chooseStatsGraph rg s g (min g.numEdges 20000) = (g, s)) ∧
    (∀ r, evaluatorInit rg s dataName g C y = .ok r →
      ∃ s2, r.statsGraph = (chooseStatsGraph rg s2 g (min g.numEdges 20000)).1) := by
  refine ⟨sample_subg_numEdges_le rg s g (min g.numEdges 20000), ?_, ?_, ?_, ?_⟩
  · intro u v
    unfold sample_subg
    simp only [List.mem_dedup, List.mem_append, List.mem_map]
    constructor
    · rintro (h | ⟨a, ha, hswap⟩)
      · exact Or.inr ⟨(u, v), h, rfl⟩
      · refine Or.inl ?_
        have : a = (v, u) := by
          have := congrArg Prod.swap hswap
          simpa using this
        rw [this] at ha
        exact ha
    · rintro (h | ⟨a, ha, hswap⟩)
      · exact Or.inr ⟨(v, u), h, rfl⟩
      · refine Or.inl ?_
        have : a = (u, v) := by
          have := congrArg Prod.swap hswap
          simpa using this
        rw [this] at ha
        exact ha
  · intro h
    unfold chooseStatsGraph
    rw [if_pos h]
  · intro h
    unfold chooseStatsGraph
    rw [if_neg (by omega)]
  · intro r hr
    obtain ⟨mp, hom, _, hre⟩ := evaluatorInit_ok rg s dataName g C y r hr
    exact ⟨mp.2, by rw [hre]⟩

/-- Witness for C5 with the identity generator on the small graph `gW`
(2 edges, below the cap, so the unsampled graph is used). -/
theorem sample_subg_spec_witness :
    RandGen.Lawful rgId ∧
    (((sample_subg rgId 0 gW (min gW.numEdges 20000)).1.numEdges ≤ min gW.numEdges 20000) ∧
    (∀ u v, (u, v) ∈ (sample_subg rgId 0 gW (min gW.numEdges 20000)).1.edgesG ↔
            (v, u) ∈ (sample_subg rgId 0 gW (min gW.numEdges 20000)).1.edgesG) ∧
    (min gW.numEdges 20000 < gW.numEdges →
      chooseStatsGraph rgId 0 gW (min gW.numEdges 20000) =
        sample_subg rgId 0 gW (min gW.numEdges 20000)) ∧
    (gW.numEdges ≤ min gW.numEdges 20000 →
      chooseStatsGraph rgId 0 gW (min gW.numEdges 20000) = (gW, 0)) ∧
    (∀ r, evaluatorInit rgId 0 "cora" gW 2 [0, 1, 1] = .ok r →
      ∃ s2, r.statsGraph = (chooseStatsGraph rgId s2 gW (min gW.numEdges 20000)).1)) :=
  ⟨rgId_lawful, sample_subg_spec rgId 0 "cora" gW 2 [0, 1, 1] rgId_lawful⟩

/- ### C7: split-mask disjointness and per-class quotas -/

/-- All three masks pairwise disjoint: for every node at most one of
train/val/test is set. -/
def maskDisjoint (m : MaskTriple) : Prop :=
  ∀ v, ¬(v ∈ m.trainM ∧ v ∈ m.valM) ∧ ¬(v ∈ m.trainM ∧ v ∈ m.testM) ∧
    ¬(v ∈ m.valM ∧ v ∈ m.testM)

/-- Number of class-`y` nodes carried by a mask. -/
def classCount (l : List ℕ) (Y : ℕ → ℕ → Bool) (y : ℕ) : ℕ :=
  (l.filter (fun v => Y v y)).length

lemma classNodes_nodup (N : ℕ) (Y : ℕ → ℕ → Bool) (y : ℕ) :
    (classNodes N Y y).Nodup :=
  (List.nodup_range N).filter _

lemma classNodes_class (N : ℕ) (Y : ℕ → ℕ → Bool) (y v : ℕ)
    (h : v ∈ classNodes N Y y) : Y v y = true :=
  (List.mem_filter.mp h).2

lemma applyPerm_sub (p ns0 : List ℕ) (hp : p.Perm (List.range ns0.length)) :
    ∀ x ∈ applyPerm p ns0, x ∈ ns0 := by
  intro x hx
  rcases List.mem_map.mp hx with ⟨i, hi, rfl⟩
  have hilt : i < ns0.length := List.mem_range.mp (hp.mem_iff.mp hi)
  rw [List.getD_eq_getElem ns0 0 hilt]
  exact List.getElem_mem hilt

lemma applyPerm_length (p ns0 : List ℕ) (hp : p.Perm (List.range ns0.length)) :
    (applyPerm p ns0).length = ns0.length := by
  unfold applyPerm
  rw [List.length_map, hp.length_eq, List.length_range]

lemma applyPerm_nodup (p ns0 : List ℕ) (hp : p.Perm (List.range ns0.length))
    (hns : ns0.Nodup) : (applyPerm p ns0).Nodup := by
  unfold applyPerm
  refine List.Nodup.map_on ?_ (hp.nodup_iff.mpr (List.nodup_range ns0.length))
  intro i hi j hj hij
  have hilt : i < ns0.length := List.mem_range.mp (hp.mem_iff.mp hi)
  have hjlt : j < ns0.length := List.mem_range.mp (hp.mem_iff.mp hj)
  rw [List.getD_eq_getElem ns0 0 hilt, List.getD_eq_getElem ns0 0 hjlt] at hij
  have hinj := List.nodup_iff_injective_get.mp hns
  have hfin : (⟨i, hilt⟩ : Fin ns0.length) = ⟨j, hjlt⟩ :=
    hinj (by simpa [List.get_eq_getElem] using hij)
  exact congrArg Fin.val hfin

/-- Elements of every mask produced by the class loop belong to one of the
processed classes. -/
lemma maskLoop_class_mem (rg : RandGen) (slice : ℕ → List ℕ → List ℕ × List ℕ × List ℕ)
    (N : ℕ) (Y : ℕ → ℕ → Bool)
    (hrg : rg.Lawful)
    (hsub : ∀ y ns, (∀ x ∈ (slice y ns).1, x ∈ ns) ∧
      (∀ x ∈ (slice y ns).2.1, x ∈ ns) ∧ (∀ x ∈ (slice y ns).2.2, x ∈ ns)) :
    ∀ ys s,
      (∀ v ∈ (maskLoop rg slice N Y ys s).1.trainM, ∃ y ∈ ys, Y v y = true) ∧
      (∀ v ∈ (maskLoop rg slice N Y ys s).1.valM, ∃ y ∈ ys, Y v y = true) ∧
      (∀ v ∈ (maskLoop rg slice N Y ys s).1.testM, ∃ y ∈ ys, Y v y = true) := by
  intro ys
  induction ys with
  | nil => intro s; simp [maskLoop]
  | cons y0 ys ih =>
    intro s
    have hperm := hrg s (classNodes N Y y0).length
    have hns0 : ∀ x ∈ applyPerm (rg.randperm s (classNodes N Y y0).length).1
        (classNodes N Y y0), Y x y0 = true := fun x hx =>
      classNodes_class N Y y0 x (applyPerm_sub _ _ hperm x hx)
    simp only [maskLoop]
    refine ⟨?_, ?_, ?_⟩ <;> intro v hv <;> rw [List.mem_append] at hv
    · rcases hv with hv | hv
      · exact ⟨y0, by simp, hns0 v ((hsub y0 _).1 v hv)⟩
      · obtain ⟨y, hy, hvy⟩ := ((ih _).1) v hv
        exact ⟨y, by simp [hy], hvy⟩
    · rcases hv with hv | hv
      · exact ⟨y0, by simp, hns0 v ((hsub y0 _).2.1 v hv)⟩
      · obtain ⟨y, hy, hvy⟩ := ((ih _).2.1) v hv
        exact ⟨y, by simp [hy], hvy⟩
    · rcases hv with hv | hv
      · exact ⟨y0, by simp, hns0 v ((hsub y0 _).2.2 v hv)⟩
      · obtain ⟨y, hy, hvy⟩ := ((ih _).2.2) v hv
        exact ⟨y, by simp [hy], hvy⟩

/-- The three masks produced by the class loop are pairwise disjoint: within
one class the three slices of a duplicate-free permuted list are disjoint,
and across classes membership is separated by the one-class-per-node
hypothesis. -/
lemma maskLoop_disjoint (rg : RandGen) (slice : ℕ → List ℕ → List ℕ × List ℕ × List ℕ)
    (N : ℕ) (Y : ℕ → ℕ → Bool)
    (hrg : rg.Lawful)
    (hY : ∀ v y1 y2, Y v y1 = true → Y v y2 = true → y1 = y2)
    (hsub : ∀ y ns, (∀ x ∈ (slice y ns).1, x ∈ ns) ∧
      (∀ x ∈ (slice y ns).2.1, x ∈ ns) ∧ (∀ x ∈ (slice y ns).2.2, x ∈ ns))
    (hdisj : ∀ y ns, ns.Nodup →
      (slice y ns).1.Disjoint (slice y ns).2.1 ∧
      (slice y ns).1.Disjoint (slice y ns).2.2 ∧
      (slice y ns).2.1.Disjoint (slice y ns).2.2) :
    ∀ ys s, ys.Nodup → maskDisjoint (maskLoop rg slice N Y ys s).1 := by
  intro ys
  induction ys with
  | nil => intro s _ v; simp [maskLoop]
  | cons y0 ys ih =>
    intro s hnd v
    have hperm := hrg s (classNodes N Y y0).length
    have hnodup := applyPerm_nodup _ _ hperm (classNodes_nodup N Y y0)
    have hclass : ∀ x ∈ applyPerm (rg.randperm s (classNodes N Y y0).length).1
        (classNodes N Y y0), Y x y0 = true := fun x hx =>
      classNodes_class N Y y0 x (applyPerm_sub _ _ hperm x hx)
    have hmem := maskLoop_class_mem rg slice N Y hrg hsub ys
      (rg.randperm s (classNodes N Y y0).length).2
    have hy0n : y0 ∉ ys := (List.nodup_cons.mp hnd).1
    have hrest := ih (rg.randperm s (classNodes N Y y0).length).2 (List.nodup_cons.mp hnd).2 v
    obtain ⟨hd1, hd2, hd3⟩ := hdisj y0 _ hnodup
    -- a node in the current class cannot also lie in a later class
    have hcross : ∀ (a : List ℕ) (restList : List ℕ),
        (∀ x ∈ a, x ∈ applyPerm (rg.randperm s (classNodes N Y y0).length).1
          (classNodes N Y y0)) →
        (∀ w ∈ restList, ∃ y ∈ ys, Y w y = true) →
        v ∈ a → v ∈ restList → False := by
      intro a restList hsubA hmemR hva hvr
      obtain ⟨y, hy, hvy⟩ := hmemR v hvr
      have : y0 = y := hY v y0 y (hclass v (hsubA v hva)) hvy
      exact hy0n (this ▸ hy)
    simp only [maskLoop]
    refine ⟨?_, ?_, ?_⟩ <;> rintro ⟨hv1, hv2⟩ <;>
      rw [List.mem_append] at hv1 hv2
    · rcases hv1 with hv1 | hv1 <;> rcases hv2 with hv2 | hv2
      · exact hd1 hv1 hv2
      · exact hcross _ _ ((hsub y0 _).1) (hmem.2.1) hv1 hv2
      · exact hcross _ _ ((hsub y0 _).2.1) (hmem.1) hv2 hv1
      · exact hrest.1 ⟨hv1, hv2⟩
    · rcases hv1 with hv1 | hv1 <;> rcases hv2 with hv2 | hv2
      · exact hd2 hv1 hv2
      · exact hcross _ _ ((hsub y0 _).1) (hmem.2.2) hv1 hv2
      · exact hcross _ _ ((hsub y0 _).2.2) (hmem.1) hv2 hv1
      · exact hrest.2.1 ⟨hv1, hv2⟩
    · rcases hv1 with hv1 | hv1 <;> rcases hv2 with hv2 | hv2
      · exact hd3 hv1 hv2
      · exact hcross _ _ ((hsub y0 _).2.1) (hmem.2.2) hv1 hv2
      · exact hcross _ _ ((hsub y0 _).2.2) (hmem.2.1) hv2 hv1
      · exact hrest.2.2 ⟨hv1, hv2⟩

/-- Per-class counts of the masks produced by the class loop: the slice of a
class contributes its full length (the slice lengths depend only on the class
size, not on the drawn permutation), other classes contribute nothing. -/
lemma maskLoop_count (rg : RandGen) (slice : ℕ → List ℕ → List ℕ × List ℕ × List ℕ)
    (N : ℕ) (Y : ℕ → ℕ → Bool) (f1 f2 f3 : ℕ → ℕ → ℕ)
    (hrg : rg.Lawful)
    (hY : ∀ v y1 y2, Y v y1 = true → Y v y2 = true → y1 = y2)
    (hsub : ∀ y ns, (∀ x ∈ (slice y ns).1, x ∈ ns) ∧
      (∀ x ∈ (slice y ns).2.1, x ∈ ns) ∧ (∀ x ∈ (slice y ns).2.2, x ∈ ns))
    (hlen : ∀ y ns, (slice y ns).1.length = f1 y ns.length ∧
      (slice y ns).2.1.length = f2 y ns.length ∧
      (slice y ns).2.2.length = f3 y ns.length) :
    ∀ ys s, ys.Nodup → ∀ y ∈ ys,
      classCount (maskLoop rg slice N Y ys s).1.trainM Y y = f1 y (classNodes N Y y).length ∧
      classCount (maskLoop rg slice N Y ys s).1.valM Y y = f2 y (classNodes N Y y).length ∧
      classCount (maskLoop rg slice N Y ys s).1.testM Y y = f3 y (classNodes N Y y).length := by
  intro ys
  induction ys with
  | nil => intro s _ y hy; cases hy
  | cons y0 ys ih =>
    intro s hnd y hy
    have hperm := hrg s (classNodes N Y y0).length
    have hlen0 := applyPerm_length _ _ hperm
    have hclass : ∀ x ∈ applyPerm (rg.randperm s (classNodes N Y y0).length).1
        (classNodes N Y y0), Y x y0 = true := fun x hx =>
      classNodes_class N Y y0 x (applyPerm_sub _ _ hperm x hx)
    have hmem := maskLoop_class_mem rg slice N Y hrg hsub ys
      (rg.randperm s (classNodes N Y y0).length).2
    have hy0n : y0 ∉ ys := (List.nodup_cons.mp hnd).1
    simp only [maskLoop]
    unfold classCount
    by_cases hyy : y = y0
    · rw [hyy, hyy] at *
      have hkeep : ∀ (a : List ℕ),
          (∀ x ∈ a, x ∈ applyPerm (rg.randperm s (classNodes N Y y0).length).1
            (classNodes N Y y0)) →
          a.filter (fun v => Y v y0) = a := fun a hsubA =>
        List.filter_eq_self.mpr (fun x hx => hclass x (hsubA x hx))
      have hdropR : ∀ (restList : List ℕ),
          (∀ w ∈ restList, ∃ y' ∈ ys, Y w y' = true) →
          restList.filter (fun v => Y v y0) = [] := by
        intro restList hmemR
        rw [List.filter_eq_nil_iff]
        intro w hw hwy
        obtain ⟨y', hy', hwy'⟩ := hmemR w hw
        exact hy0n ((hY w y0 y' (by simpa using hwy) hwy') ▸ hy')
      obtain ⟨hl1, hl2, hl3⟩ := hlen y0
        (applyPerm (rg.randperm s (classNodes N Y y0).length).1 (classNodes N Y y0))
      refine ⟨?_, ?_, ?_⟩
      · rw [List.filter_append, hkeep _ (hsub y0 _).1, hdropR _ hmem.1,
          List.append_nil, hl1, hlen0]
      · rw [List.filter_append, hkeep _ (hsub y0 _).2.1, hdropR _ hmem.2.1,
          List.append_nil, hl2, hlen0]
      · rw [List.filter_append, hkeep _ (hsub y0 _).2.2, hdropR _ hmem.2.2,
          List.append_nil, hl3, hlen0]
    · have hyys : y ∈ ys := by
        rcases List.mem_cons.mp hy with h | h
        · exact absurd h hyy
        · exact h
      have hdropA : ∀ (a : List ℕ),
          (∀ x ∈ a, x ∈ applyPerm (rg.randperm s (classNodes N Y y0).length).1
            (classNodes N Y y0)) →
          a.filter (fun v => Y v y) = [] := by
        intro a hsubA
        rw [List.filter_eq_nil_iff]
        intro w hw hwy
        exact hyy (hY w y y0 (by simpa using hwy) (hclass w (hsubA w hw)))
      obtain ⟨ih1, ih2, ih3⟩ := ih (rg.randperm s (classNodes N Y y0).length).2
        (List.nodup_cons.mp hnd).2 y hyys
      refine ⟨?_, ?_, ?_⟩
      · rw [List.filter_append, hdropA _ (hsub y0 _).1, List.nil_append]
        exact ih1
      · rw [List.filter_append, hdropA _ (hsub y0 _).2.1, List.nil_append]
        exact ih2
      · rw [List.filter_append, hdropA _ (hsub y0 _).2.2, List.nil_append]
        exact ih3

lemma classSlices_sub (vC tC : ℕ → ℕ) : ∀ y ns,
    (∀ x ∈ (classSlices vC tC y ns).1, x ∈ ns) ∧
    (∀ x ∈ (classSlices vC tC y ns).2.1, x ∈ ns) ∧
    (∀ x ∈ (classSlices vC tC y ns).2.2, x ∈ ns) := by
  intro y ns
  unfold classSlices
  exact ⟨fun x hx => List.take_subset _ _ hx,
    fun x hx => List.drop_subset _ _ (List.take_subset _ _ hx),
    fun x hx => List.drop_subset _ _ (List.drop_subset _ _ (List.take_subset _ _ hx))⟩

lemma classSlices_disj (vC tC : ℕ → ℕ) : ∀ y ns, ns.Nodup →
    (classSlices vC tC y ns).1.Disjoint (classSlices vC tC y ns).2.1 ∧
    (classSlices vC tC y ns).1.Disjoint (classSlices vC tC y ns).2.2 ∧
    (classSlices vC tC y ns).2.1.Disjoint (classSlices vC tC y ns).2.2 := by
  intro y ns h
  unfold classSlices
  dsimp only
  have base : (ns.take 20).Disjoint (ns.drop 20) := List.disjoint_take_drop h (le_refl 20)
  have hdnodup : (ns.drop 20).Nodup := (List.drop_sublist 20 ns).nodup h
  have base2 : ((ns.drop 20).take (vC y)).Disjoint ((ns.drop 20).drop (vC y)) :=
    List.disjoint_take_drop hdnodup (le_refl _)
  refine ⟨?_, ?_, ?_⟩
  · intro a ha hb; exact base ha (List.take_subset _ _ hb)
  · intro a ha hb
    exact base ha (List.drop_subset _ _ (List.take_subset _ _ hb))
  · intro a ha hb; exact base2 ha (List.take_subset _ _ hb)

lemma classSlices_len (vC tC : ℕ → ℕ) : ∀ y ns,
    (classSlices vC tC y ns).1.length = min 20 ns.length ∧
    (classSlices vC tC y ns).2.1.length = min (vC y) (ns.length - 20) ∧
    (classSlices vC tC y ns).2.2.length = min (tC y) (ns.length - 20 - vC y) := by
  intro y ns
  unfold classSlices
  refine ⟨by simp, by simp, ?_⟩
  simp [List.length_take, List.length_drop]
  omega

lemma classSlicesBench_sub : ∀ y ns,
    (∀ x ∈ (classSlicesBench y ns).1, x ∈ ns) ∧
    (∀ x ∈ (classSlicesBench y ns).2.1, x ∈ ns) ∧
    (∀ x ∈ (classSlicesBench y ns).2.2, x ∈ ns) := by
  intro y ns
  unfold classSlicesBench
  exact ⟨fun x hx => List.take_subset _ _ hx,
    fun x hx => List.drop_subset _ _ (List.take_subset _ _ hx),
    fun x hx => List.drop_subset _ _ hx⟩

lemma classSlicesBench_disj : ∀ y ns, ns.Nodup →
    (classSlicesBench y ns).1.Disjoint (classSlicesBench y ns).2.1 ∧
    (classSlicesBench y ns).1.Disjoint (classSlicesBench y ns).2.2 ∧
    (classSlicesBench y ns).2.1.Disjoint (classSlicesBench y ns).2.2 := by
  intro y ns h
  unfold classSlicesBench
  dsimp only
  have base : (ns.take 20).Disjoint (ns.drop 20) := List.disjoint_take_drop h (le_refl 20)
  have hdnodup : (ns.drop 20).Nodup := (List.drop_sublist 20 ns).nodup h
  have base2 : ((ns.drop 20).take 30).Disjoint ((ns.drop 20).drop 30) :=
    List.disjoint_take_drop hdnodup (le_refl _)
  have hdd : (ns.drop 20).drop 30 = ns.drop 50 := by
    rw [List.drop_drop]
  refine ⟨?_, ?_, ?_⟩
  · intro a ha hb; exact base ha (List.take_subset _ _ hb)
  · intro a ha hb
    exact List.disjoint_take_drop h (by omega : 20 ≤ 50) ha hb
  · intro a ha hb
    exact base2 ha (by rw [hdd]; exact hb)

lemma classSlicesBench_len : ∀ y ns,
    (classSlicesBench y ns).1.length = min 20 ns.length ∧
    (classSlicesBench y ns).2.1.length = min 30 (ns.length - 20) ∧
    (classSlicesBench y ns).2.2.length = ns.length - 50 := by
  intro y ns
  unfold classSlicesBench
  exact ⟨by simp, by simp, by simp [List.length_drop]⟩

/-- C7: with a lawful generator and at most one class per node (one-hot
labels), all three mask strategies produce pairwise disjoint
train/val/test masks; and for each class large enough to fill its quota the
per-class counts match exactly — 20 train plus the per-class `num_val_nodes`
and `num_test_nodes` constants for the cora and citeseer strategies (whose
Python lookup tables cover 7 and 6 classes), and 20 train, 30 val and the
remainder test for the benchmark strategy. -/
theorem add_mask_properties (rg : RandGen) (s : ℕ) (N C : ℕ) (Y : ℕ → ℕ → Bool)
    (hrg : rg.Lawful)
    (hY : ∀ v y1 y2, Y v y1 = true → Y v y2 = true → y1 = y2) :
    maskDisjoint (add_mask_cora rg s N C Y).1 ∧
    maskDisjoint (add_mask_citeseer rg s N C Y).1 ∧
    maskDisjoint (add_mask_benchmark rg s N C Y).1 ∧
    (C ≤ 7 → ∀ y, y < C →
      20 + num_val_nodes_cora y + num_test_nodes_cora y ≤ (classNodes N Y y).length →
      classCount (add_mask_cora rg s N C Y).1.trainM Y y = 20 ∧
      classCount (add_mask_cora rg s N C Y).1.valM Y y = num_val_nodes_cora y ∧
      classCount (add_mask_cora rg s N C Y).1.testM Y y = num_test_nodes_cora y) ∧
    (C ≤ 6 → ∀ y, y < C →
      20 + num_val_nodes_citeseer y + num_test_nodes_citeseer y ≤ (classNodes N Y y).length →
      classCount (add_mask_citeseer rg s N C Y).1.trainM Y y = 20 ∧
      classCount (add_mask_citeseer rg s N C Y).1.valM Y y = num_val_nodes_citeseer y ∧
      classCount (add_mask_citeseer rg s N C Y).1.testM Y y = num_test_nodes_citeseer y) ∧
    (∀ y, y < C → 50 ≤ (classNodes N Y y).length →
      classCount (add_mask_benchmark rg s N C Y).1.trainM Y y = 20 ∧
      classCount (add_mask_benchmark rg s N C Y).1.valM Y y = 30 ∧
      classCount (add_mask_benchmark rg s N C Y).1.testM Y y =
        (classNodes N Y y).length - 50) := by
  refine ⟨?_, ?_, ?_, ?_, ?_, ?_⟩
  · exact maskLoop_disjoint rg _ N Y hrg hY (classSlices_sub _ _) (classSlices_disj _ _)
      (List.range C) s (List.nodup_range C)
  · exact maskLoop_disjoint rg _ N Y hrg hY (classSlices_sub _ _) (classSlices_disj _ _)
      (List.range C) s (List.nodup_range C)
  · exact maskLoop_disjoint rg _ N Y hrg hY classSlicesBench_sub classSlicesBench_disj
      (List.range C) s (List.nodup_range C)
  · intro _ y hyC hquota
    obtain ⟨q1, q2, q3⟩ := maskLoop_count rg
      (classSlices num_val_nodes_cora num_test_nodes_cora) N Y
      (fun _ n => min 20 n)
      (fun y n => min (num_val_nodes_cora y) (n - 20))
      (fun y n => min (num_test_nodes_cora y) (n - 20 - num_val_nodes_cora y))
      hrg hY (classSlices_sub _ _) (classSlices_len _ _)
      (List.range C) s (List.nodup_range C) y (List.mem_range.mpr hyC)
    refine ⟨?_, ?_, ?_⟩
    · unfold add_mask_cora; rw [q1]; omega
    · unfold add_mask_cora; rw [q2]; omega
    · unfold add_mask_cora; rw [q3]; omega
  · intro _ y hyC hquota
    obtain ⟨q1, q2, q3⟩ := maskLoop_count rg
      (classSlices num_val_nodes_citeseer num_test_nodes_citeseer) N Y
      (fun _ n => min 20 n)
      (fun y n => min (num_val_nodes_citeseer y) (n - 20))
      (fun y n => min (num_test_nodes_citeseer y) (n - 20 - num_val_nodes_citeseer y))
      hrg hY (classSlices_sub _ _) (classSlices_len _ _)
      (List.range C) s (List.nodup_range C) y (List.mem_range.mpr hyC)
    refine ⟨?_, ?_, ?_⟩
    · unfold add_mask_citeseer; rw [q1]; omega
    · unfold add_mask_citeseer; rw [q2]; omega
    · unfold add_mask_citeseer; rw [q3]; omega
  · intro y hyC hquota
    obtain ⟨q1, q2, q3⟩ := maskLoop_count rg classSlicesBench N Y
      (fun _ n => min 20 n)
      (fun _ n => min 30 (n - 20))
      (fun _ n => n - 50)
      hrg hY classSlicesBench_sub classSlicesBench_len
      (List.range C) s (List.nodup_range C) y (List.mem_range.mpr hyC)
    refine ⟨?_, ?_, ?_⟩
    · unfold add_mask_benchmark; rw [q1]; omega
    · unfold add_mask_benchmark; rw [q2]; omega
    · unfold add_mask_benchmark; rw [q3]

/-- One-hot label function used by the C7 witness: node 0 carries class 0,
all other nodes carry no class at all (an empty one-hot row never puts a node
in two splits). -/
def Yw : ℕ → ℕ → Bool := fun v y => v == 0 && y == 0

lemma Yw_one_class : ∀ v y1 y2, Yw v y1 = true → Yw v y2 = true → y1 = y2 := by
  intro v y1 y2 h1 h2
  simp only [Yw, Bool.and_eq_true, beq_iff_eq] at h1 h2
  omega

/-- Witness for C7 with the identity generator, one node, six classes. -/
theorem add_mask_properties_witness :
    (RandGen.Lawful rgId ∧ ∀ v y1 y2, Yw v y1 = true → Yw v y2 = true → y1 = y2) ∧
    (maskDisjoint (add_mask_cora rgId 0 1 6 Yw).1 ∧
    maskDisjoint (add_mask_citeseer rgId 0 1 6 Yw).1 ∧
    maskDisjoint (add_mask_benchmark rgId 0 1 6 Yw).1 ∧
    (6 ≤ 7 → ∀ y, y < 6 →
      20 + num_val_nodes_cora y + num_test_nodes_cora y ≤ (classNodes 1 Yw y).length →
      classCount (add_mask_cora rgId 0 1 6 Yw).1.trainM Yw y = 20 ∧
      classCount (add_mask_cora rgId 0 1 6 Yw).1.valM Yw y = num_val_nodes_cora y ∧
      classCount (add_mask_cora rgId 0 1 6 Yw).1.testM Yw y = num_test_nodes_cora y) ∧
    (6 ≤ 6 → ∀ y, y < 6 →
      20 + num_val_nodes_citeseer y + num_test_nodes_citeseer y ≤ (classNodes 1 Yw y).length →
      classCount (add_mask_citeseer rgId 0 1 6 Yw).1.trainM Yw y = 20 ∧
      classCount (add_mask_citeseer rgId 0 1 6 Yw).1.valM Yw y = num_val_nodes_citeseer y ∧
      classCount (add_mask_citeseer rgId 0 1 6 Yw).1.testM Yw y = num_test_nodes_citeseer y) ∧
    (∀ y, y < 6 → 50 ≤ (classNodes 1 Yw y).length →
      classCount (add_mask_benchmark rgId 0 1 6 Yw).1.trainM Yw y = 20 ∧
      classCount (add_mask_benchmark rgId 0 1 6 Yw).1.valM Yw y = 30 ∧
      classCount (add_mask_benchmark rgId 0 1 6 Yw).1.testM Yw y =
        (classNodes 1 Yw y).length - 50)) :=
  ⟨⟨rgId_lawful, Yw_one_class⟩,
    add_mask_properties rgId 0 1 6 Yw rgId_lawful Yw_one_class⟩

/- ### C2: termination of the training loop (`train_async.py`, lines 96-127) -/

/-- Observable state of the epoch loop in `main`. -/
structure LoopState where
  epochsRun : ℕ
  numPatientEpochs : ℕ
deriving Repr, DecidableEq

/-- The epoch loop of `main`: `num_patient_epochs = 0` followed by
`for epoch in range(num_epochs)`, whose body iterates the mini-batches
(modelled separately by `batchUpdate`) and logs losses, but contains no
validation, no patience update and no break — the per-epoch improvement
signal `improves` is never consulted. -/
def mainLoop (numEpochs : ℕ) (improves : ℕ → Bool) : LoopState :=
  let _ := improves
  (List.range numEpochs).foldl
    (fun st _epoch => ⟨st.epochsRun + 1, st.numPatientEpochs⟩) ⟨0, 0⟩

lemma mainLoop_foldl (l : List ℕ) (st : LoopState) :
    (l.foldl (fun st _epoch => (⟨st.epochsRun + 1, st.numPatientEpochs⟩ : LoopState)) st) =
      ⟨st.epochsRun + l.length, st.numPatientEpochs⟩ := by
  induction l generalizing st with
  | nil => simp
  | cons a l ih =>
    rw [List.foldl_cons, ih]
    simp [LoopState.mk.injEq]
    omega

/-- C2 counterexample: with an epoch budget of 3 and no stream improving at
any validation opportunity, the loop still runs all 3 epochs and the patience
counter stays at its initial 0 — with any configured patience below 3 the
claim would require stopping before the budget. -/
theorem train_loop_no_early_stop_cex :
    (mainLoop 3 (fun _ => false)).epochsRun = 3 ∧
    (mainLoop 3 (fun _ => false)).numPatientEpochs = 0 := by decide

/-- C2 amended: the training loop reaches its terminal state exactly when the
epoch budget `train.num_epochs` is exhausted: it executes precisely that many
epochs regardless of the improvement history, and `num_patient_epochs` is
initialized to 0 but never updated or consulted — no patience-based early
stopping exists in the code. -/
theorem train_loop_terminates_at_budget (numEpochs : ℕ) (improves : ℕ → Bool) :
    (mainLoop numEpochs improves).epochsRun = numEpochs ∧
    (mainLoop numEpochs improves).numPatientEpochs = 0 := by
  unfold mainLoop
  rw [mainLoop_foldl]
  simp

/- ### C3: per-batch gradient clipping and stepping
(`train_async.py`, lines 111-124) -/

/-- Sum of squares of a gradient vector. -/
def sumSq (g : List ℝ) : ℝ := (g.map (fun x => x ^ 2)).sum

/-- `torch.nn.utils.clip_grad_norm_(params, c)`: compute the total 2-norm of
the given parameter set's gradients, and scale exactly those gradients by
`c / (total_norm + 1e-6)` when that coefficient is below 1. -/
noncomputable def clip_grad_norm (c : ℝ) (g : List ℝ) : List ℝ :=
  let totalNorm := Real.sqrt (sumSq g)
  let coef := c / (totalNorm + 1 / 1000000)
  if coef < 1 then g.map (fun x => x * coef) else g

/-- One mini-batch step after the single combined backward pass over
`loss_X + loss_E` has accumulated the gradients `gX` and `gE` into the two
disjoint parameter sets: first both clips (each reading only its own
stream's gradients), then both optimizer steps (`stepX`, `stepE` stand for
the two `AdamW` updates, each a function of its own parameters and
gradients only). -/
noncomputable def batchUpdate (c : ℝ) (stepX stepE : List ℝ → List ℝ → List ℝ)
    (pX pE gX gE : List ℝ) : List ℝ × List ℝ :=
  let gX2 := clip_grad_norm c gX
  let gE2 := clip_grad_norm c gE
  (stepX pX gX2, stepE pE gE2)

/-- The same mini-batch step with stream E's clipping removed. -/
noncomputable def batchUpdateNoClipE (c : ℝ) (stepX stepE : List ℝ → List ℝ → List ℝ)
    (pX pE gX gE : List ℝ) : List ℝ × List ℝ :=
  (stepX pX (clip_grad_norm c gX), stepE pE gE)

/-- C3: in a scenario where stream E's gradient norm exceeds the cap while
stream X's does not, stream X's parameter update is identical to the update
without E's clipping (for every optimizer behaviour), X's own gradients pass
through the clip unchanged, and E's gradients really are rescaled. -/
theorem grad_clip_independent (c : ℝ) (stepX stepE : List ℝ → List ℝ → List ℝ)
    (pX pE gX gE : List ℝ)
    (hE : c / (Real.sqrt (sumSq gE) + 1 / 1000000) < 1)
    (hX : ¬ c / (Real.sqrt (sumSq gX) + 1 / 1000000) < 1) :
    (batchUpdate c stepX stepE pX pE gX gE).1 =
      (batchUpdateNoClipE c stepX stepE pX pE gX gE).1 ∧
    (batchUpdate c stepX stepE pX pE gX gE).1 = stepX pX gX ∧
    clip_grad_norm c gE =
      gE.map (fun x => x * (c / (Real.sqrt (sumSq gE) + 1 / 1000000))) := by
  have hclipX : clip_grad_norm c gX = gX := by
    unfold clip_grad_norm
    rw [if_neg hX]
  have hclipE : clip_grad_norm c gE =
      gE.map (fun x => x * (c / (Real.sqrt (sumSq gE) + 1 / 1000000))) := by
    unfold clip_grad_norm
    rw [if_pos hE]
  exact ⟨rfl, by unfold batchUpdate; rw [hclipX], hclipE⟩

lemma sumSq_34 : sumSq [(3 : ℝ), 4] = 25 := by
  simp [sumSq]
  norm_num

lemma sumSq_3 : sumSq [(3 : ℝ)] = 9 := by
  simp [sumSq]
  norm_num

lemma clip_coef_lt_one_34 : (4 : ℝ) / (Real.sqrt (sumSq [3, 4]) + 1 / 1000000) < 1 := by
  rw [sumSq_34, show (25 : ℝ) = 5 ^ 2 by norm_num,
    Real.sqrt_sq (by norm_num : (0 : ℝ) ≤ 5), div_lt_one (by norm_num)]
  norm_num

lemma clip_coef_ge_one_3 : ¬ (4 : ℝ) / (Real.sqrt (sumSq [3]) + 1 / 1000000) < 1 := by
  rw [sumSq_3, show (9 : ℝ) = 3 ^ 2 by norm_num,
    Real.sqrt_sq (by norm_num : (0 : ℝ) ≤ 3), not_lt, le_div_iff₀ (by norm_num)]
  norm_num

/-- Witness for C3: cap 4, stream E's gradient `[3, 4]` (norm 5, clipped),
stream X's gradient `[3]` (norm 3, untouched). -/
theorem grad_clip_independent_witness :
    ((4 : ℝ) / (Real.sqrt (sumSq [3, 4]) + 1 / 1000000) < 1 ∧
      ¬ (4 : ℝ) / (Real.sqrt (sumSq [3]) + 1 / 1000000) < 1) ∧
    ((batchUpdate 4 (fun p _ => p) (fun p _ => p) [0] [0] [3] [3, 4]).1 =
        (batchUpdateNoClipE 4 (fun p _ => p) (fun p _ => p) [0] [0] [3] [3, 4]).1 ∧
      (batchUpdate 4 (fun p _ => p) (fun p _ => p) [0] [0] [3] [3, 4]).1 =
        (fun p (_ : List ℝ) => p) [0] [3] ∧
      clip_grad_norm 4 [3, 4] =
        [3, 4].map (fun x => x * (4 / (Real.sqrt (sumSq [3, 4]) + 1 / 1000000)))) :=
  ⟨⟨clip_coef_lt_one_34, clip_coef_ge_one_3⟩,
    grad_clip_independent 4 (fun p _ => p) (fun p _ => p) [0] [0] [3] [3, 4]
      clip_coef_lt_one_34 clip_coef_ge_one_3⟩

/- ### C8: per-batch metrics emission (`train_async.py`, lines 126-127) -/

/-- The two optimization streams. -/
def streamNames : List String := ["X", "E"]

/-- `wandb.log({"train/loss_X": loss_X.item(), "train/loss_E": loss_E.item()})`:
the key/value pairs emitted to the metrics sink for one mini-batch. -/
def batchLogEntries (lossX lossE : ℚ) : List (String × ℚ) :=
  [("train/loss_X", lossX), ("train/loss_E", lossE)]

/-- C8 counterexample: the emitted keys are not of the form
`{stream_name}/loss` — neither `"X/loss"` nor `"E/loss"` ever appears. -/
theorem batch_log_keys_cex :
    ("X/loss" ∉ (batchLogEntries 1 2).map Prod.fst) ∧
    ("E/loss" ∉ (batchLogEntries 1 2).map Prod.fst) ∧
    (batchLogEntries 1 2).map Prod.fst ≠
      streamNames.map (fun sN => sN ++ "/loss") := by decide

/-- C8 amended: every mini-batch emits exactly one entry per stream, keyed
`train/loss_{stream_name}` and carrying that stream's loss value. -/
theorem batch_log_keys_amended (lossX lossE : ℚ) :
    (batchLogEntries lossX lossE).map Prod.fst =
      streamNames.map (fun sN => "train/loss_" ++ sN) ∧
    (batchLogEntries lossX lossE).map Prod.snd = [lossX, lossE] := by
  constructor <;> rfl
